import Mathlib

/-!
Verification of the natural-language specification of mpetazzoni/sse.js
against the source shipped under src/.

The central implementation studied here is the bundled sse.js found in
src/unnamed/part_003 (the 2016-2023 version of the library, the one the
claims cite): its stream-progress record splitter, its event-chunk
tokenizer, its listener registry and its connection state machine are
embedded below as executable Lean functions over a character-list model
of JavaScript strings.

The repository's current main file lib/sse.js is not present under src/
(only its test suite src/lib/sse.test.js is); the few behaviours that
exist only in that missing file (the lastEventId register and the retry
field's effect on the reconnection delay) are modelled from the spec in
the SpecSSE namespace, with doc comments marking them as such.

JavaScript semantics that matter here and are reflected faithfully:
  - String.prototype.split with the regex (\r\n|\r|\n){2} uses a
    backtracking engine, so a lone CRLF pair is matched as the two
    end-of-line tokens CR and LF and therefore acts as a record
    boundary; the captured group (the second token) is interleaved in
    the split result;
  - String.prototype.split with the regex \n|\r\n|\r consumes a CRLF
    pair as a single separator because the CR position first tries \n
    (fails) and then \r\n (succeeds);
  - trimRight / trim remove the WhiteSpace and LineTerminator sets;
  - Array.prototype.every captures the array length when iteration
    starts, so elements appended during iteration are not visited, and
    removeEventListener replaces the array object, so an iteration
    already under way keeps reading the original object.
-/

/-- JavaScript strings are modelled as lists of characters. -/
abbrev Str := List Char

/-- Membership of the ECMAScript WhiteSpace and LineTerminator sets,
the characters removed by trim, trimLeft and trimRight. -/
def jsWhitespace (c : Char) : Bool :=
  (9 ≤ c.toNat && c.toNat ≤ 13) || c.toNat = 32 || c.toNat = 160 ||
  c.toNat = 0x1680 || (0x2000 ≤ c.toNat && c.toNat ≤ 0x200A) ||
  c.toNat = 0x2028 || c.toNat = 0x2029 || c.toNat = 0x202F ||
  c.toNat = 0x205F || c.toNat = 0x3000 || c.toNat = 0xFEFF

/-- Model of the JavaScript trimRight (trimEnd) method. -/
def jsTrimRight (s : Str) : Str :=
  (s.reverse.dropWhile jsWhitespace).reverse

/-- Model of the JavaScript trim method. -/
def jsTrim (s : Str) : Str :=
  ((s.dropWhile jsWhitespace).reverse.dropWhile jsWhitespace).reverse

/-- Index of the first FIELD_SEPARATOR colon in a line, as computed by
line.indexOf(this.FIELD_SEPARATOR); none models the JavaScript -1. -/
def firstColonIdx : Str → Option Nat
  | [] => none
  | c :: t => if c = ':' then some 0 else (firstColonIdx t).map (· + 1)

/-- The field name data. -/
def dataK : Str := ['d', 'a', 't', 'a']

/-- The field name event. -/
def eventK : Str := ['e', 'v', 'e', 'n', 't']

/-- The field name id. -/
def idK : Str := ['i', 'd']

/-- The field name retry. -/
def retryK : Str := ['r', 'e', 't', 'r', 'y']

/-- The default event type message. -/
def messageK : Str := ['m', 'e', 's', 's', 'a', 'g', 'e']

/-- Cons a character onto the first piece of a split result. -/
def consHead (c : Char) : List Str → List Str
  | [] => [[c]]
  | h :: t => (c :: h) :: t

/-- The last piece of a split result, the value parts.pop() returns. -/
def lastD : List Str → Str
  | [] => []
  | [a] => a
  | _ :: t => lastD t

/-- A split result without its last piece, what remains of parts after
parts.pop(). -/
def dropTail : List Str → List Str
  | [] => []
  | [_] => []
  | a :: t => a :: dropTail t

/-- Model of chunk.split yielding the pieces cut by the line-separator
regex with alternatives LF, CRLF, CR in that order: at a CR the engine
first tries LF (fails) then CRLF, so a CRLF pair is one separator. -/
def splitLines : Str → List Str
  | [] => [[]]
  | '\n' :: t => [] :: splitLines t
  | '\r' :: '\n' :: t => [] :: splitLines t
  | '\r' :: t => [] :: splitLines t
  | c :: t => consHead c (splitLines t)

/-- Model of buffer.split on the record-boundary regex: two consecutive
end-of-line tokens, each CRLF, CR or LF tried in that order, with
ECMAScript backtracking through the alternatives of the first token
when the second token fails (so a lone CRLF matches as CR then LF).
The result interleaves the pieces with the captured group, which is the
second matched token, exactly as String.prototype.split does with a
capturing regex. -/
def splitRecords : Str → List Str
  | '\r' :: '\n' :: '\r' :: '\n' :: u => [] :: ['\r', '\n'] :: splitRecords u
  | '\r' :: '\n' :: '\r' :: u => [] :: ['\r'] :: splitRecords u
  | '\r' :: '\n' :: '\n' :: u => [] :: ['\n'] :: splitRecords u
  | '\r' :: '\n' :: u => [] :: ['\n'] :: splitRecords u
  | '\r' :: '\r' :: '\n' :: u => [] :: ['\r', '\n'] :: splitRecords u
  | '\r' :: '\r' :: u => [] :: ['\r'] :: splitRecords u
  | '\n' :: '\r' :: '\n' :: u => [] :: ['\r', '\n'] :: splitRecords u
  | '\n' :: '\r' :: u => [] :: ['\r'] :: splitRecords u
  | '\n' :: '\n' :: u => [] :: ['\n'] :: splitRecords u
  | c :: t => consHead c (splitRecords t)
  | [] => [[]]

/-- Whether a string is free of carriage returns. -/
def noCR (s : Str) : Bool :=
  s.all (fun c => c ≠ '\r')

/-- The record splitter restricted to line-feed-only input: boundaries
are exactly the adjacent LF pairs, leftmost first. -/
def splitNN : Str → List Str
  | '\n' :: '\n' :: u => [] :: splitNN u
  | c :: t => consHead c (splitNN t)
  | [] => [[]]

/-- Interleave the pieces of an LF-only split with the captured group,
which is always a single LF. -/
def interNL : List Str → List Str
  | [] => []
  | [a] => [a]
  | a :: rest => a :: ['\n'] :: interNL rest

/-- Rejoin the pieces of an LF-only split with double LF separators. -/
def joinNN : List Str → Str
  | [] => []
  | [a] => a
  | a :: rest => a ++ '\n' :: '\n' :: joinNN rest

/-- Concatenation of a list of delivered pieces into the total text. -/
def concatL : List Str → Str
  | [] => []
  | p :: ps => p ++ concatL ps

namespace SSE203

/-- The accumulator object e of _parseEventChunk in src/unnamed/part_003:
id, retry and data start as null, event starts as the string message. -/
structure RawEvent where
  id : Option Str
  retry : Option Str
  data : Option Str
  event : Str
deriving DecidableEq, Repr

/-- Initial accumulator of _parseEventChunk. -/
def initRawEvent : RawEvent :=
  { id := none, retry := none, data := none, event := messageK }

/-- The field-and-value extraction of one line of _parseEventChunk
(src/unnamed/part_003 lines 230-246): right-trim the line, find the
first colon, skip the line when the index is at most zero (empty line,
no colon, or comment), otherwise the field is the text before the
colon and the value the text after it, with one space after the colon
skipped when present. -/
def lineField (rawLine : Str) : Option (Str × Str) :=
  let line := jsTrimRight rawLine
  match firstColonIdx line with
  | none => none
  | some idx =>
    if idx = 0 then none
    else
      let skip := if line.get? (idx + 1) = some ' ' then 2 else 1
      some (line.take idx, line.drop (idx + skip))

/-- One iteration of the forEach over lines in _parseEventChunk
(src/unnamed/part_003 lines 230-254): skip lines without a usable
field, skip unrecognized field names, and update the accumulator,
concatenating consecutive data values with a newline. -/
def procLine (e : RawEvent) (rawLine : Str) : RawEvent :=
  match lineField rawLine with
  | none => e
  | some (field, value) =>
    if field = dataK then
      match e.data with
      | some d => { e with data := some (d ++ '\n' :: value) }
      | none => { e with data := some value }
    else if field = eventK then { e with event := value }
    else if field = idK then { e with id := some value }
    else if field = retryK then { e with retry := some value }
    else e

/-- The constructed event returned by _parseEventChunk: a CustomEvent of
the accumulated type carrying the data string and the record id. -/
structure PEvent where
  type : Str
  data : Str
  id : Option Str
deriving DecidableEq, Repr

/-- Model of _parseEventChunk (src/unnamed/part_003 lines 220-260): null
for an empty chunk, otherwise fold the line handler over the split
lines and build the event, with e.data or-defaulted to the empty
string. -/
def parseEventChunk (chunk : Str) : Option PEvent :=
  if chunk = [] then none
  else
    let e := (splitLines chunk).foldl procLine initRawEvent
    some { type := e.event, data := e.data.getD [], id := e.id }

/-- Events observed through this.dispatchEvent; dispatchEvent(null) is
not an event (it returns true immediately). The events the library
itself constructs are non-cancelable CustomEvents, so preventDefault
never sets defaultPrevented and every dispatch runs all listeners. -/
inductive Ev where
  | parsed (e : PEvent)
  | opened
  | rsc (state : Int)
  | error (data : Str)
  | aborted
deriving DecidableEq, Repr

/-- The underlying transport object: the slice of XMLHttpRequest state
the handlers read (numeric status and cumulative response text). -/
structure Xhr where
  status : Int
  responseText : Str
deriving DecidableEq, Repr

/-- The per-instance connection state of the SSE object of
src/unnamed/part_003: the transport handle (null when absent), the
readyState enum value, the consumed-text offset and the residual
carry-over buffer. -/
structure ConnState where
  xhr : Option Xhr
  readyState : Int
  progressOfs : Nat
  chunk : Str
deriving DecidableEq, Repr

/-- The INITIALIZING ready state. -/
def INITIALIZING : Int := -1

/-- The CONNECTING ready state. -/
def CONNECTING : Int := 0

/-- The OPEN ready state. -/
def OPEN : Int := 1

/-- The CLOSED ready state. -/
def CLOSED : Int := 2

/-- State of an instance constructed with start set to false, before
stream() is ever called (src/unnamed/part_003 lines 95-98): no
transport object and readyState INITIALIZING. -/
def freshInstance : ConnState :=
  { xhr := none, readyState := INITIALIZING, progressOfs := 0, chunk := [] }

/-- Model of _setReadyState: store the state and dispatch a
readystatechange event carrying it. -/
def setReadyState (st : ConnState) (s : Int) : ConnState × List Ev :=
  ({ st with readyState := s }, [Ev.rsc s])

/-- Model of close (src/unnamed/part_003 lines 294-302). The method
reads this.xhr.abort() without a null check, so when no transport
object exists the call throws a TypeError, modelled as none. The
residual chunk is not cleared. -/
def close (st : ConnState) : Option (ConnState × List Ev) :=
  if st.readyState = CLOSED then some (st, [])
  else
    match st.xhr with
    | none => none
    | some _ =>
      let (st1, evs) := setReadyState { st with xhr := none } CLOSED
      some (st1, evs)

/-- Model of _onStreamFailure (src/unnamed/part_003 lines 164-169): an
error event carrying e.currentTarget.response (the raw response body,
passed here as an argument) is dispatched, then close() runs. No
status code is attached to the event. -/
def onStreamFailure (st : ConnState) (body : Str) : Option (ConnState × List Ev) :=
  match close st with
  | none => none
  | some (st1, evs) => some (st1, Ev.error body :: evs)

/-- Model of _onStreamAbort (src/unnamed/part_003 lines 171-174): an
abort event is dispatched unconditionally, then close() runs. -/
def onStreamAbort (st : ConnState) : Option (ConnState × List Ev) :=
  match close st with
  | none => none
  | some (st1, evs) => some (st1, Ev.aborted :: evs)

/-- Events dispatched for one non-residual part of the record split:
the part is dispatched when its trim is non-empty, through
_parseEventChunk (a null parse dispatches nothing). -/
def dispatchOf (p : Str) : List Ev :=
  if jsTrim p = [] then [] else (parseEventChunk p).toList.map Ev.parsed

/-- Concatenation of the events of a list of parts. -/
def dispatchAll (ps : List Str) : List Ev :=
  ps.foldr (fun p acc => dispatchOf p ++ acc) []

/-- Model of _onStreamProgress (src/unnamed/part_003 lines 176-205):
return silently when the transport handle is null; treat any status
other than 200 as a stream failure; dispatch open and move to OPEN on
the first notification while CONNECTING; then split the residual
buffer plus the newly received response-text suffix on the
record-boundary regex, keep the popped last part as the new residual,
and dispatch every other part whose trim is non-empty. -/
def onStreamProgress (st : ConnState) : Option (ConnState × List Ev) :=
  match st.xhr with
  | none => some (st, [])
  | some x =>
    if x.status ≠ 200 then onStreamFailure st x.responseText
    else
      let (st1, evs1) :=
        if st.readyState = CONNECTING then
          let (st2, evs2) := setReadyState st OPEN
          (st2, Ev.opened :: evs2)
        else (st, [])
      let data := x.responseText.drop st1.progressOfs
      let parts := splitRecords (st1.chunk ++ data)
      some ({ st1 with progressOfs := st1.progressOfs + data.length,
                       chunk := lastD parts },
            evs1 ++ dispatchAll (dropTail parts))

/-- Model of _onStreamLoaded (src/unnamed/part_003 lines 207-213): run
the progress handler, then parse and dispatch the residual chunk as a
final record and clear it. -/
def onStreamLoaded (st : ConnState) : Option (ConnState × List Ev) :=
  match onStreamProgress st with
  | none => none
  | some (st1, evs1) =>
    some ({ st1 with chunk := [] },
          evs1 ++ (parseEventChunk st1.chunk).toList.map Ev.parsed)

/-- Model of _checkStreamClosed (src/unnamed/part_003 lines 262-270):
silent when the transport handle is null; when the transport reports
readyState DONE (4), move to CLOSED without clearing anything. -/
def checkStreamClosed (st : ConnState) (xhrReadyState : Int) : ConnState × List Ev :=
  match st.xhr with
  | none => (st, [])
  | some _ =>
    if xhrReadyState = 4 then setReadyState st CLOSED else (st, [])

/-- Delivery of one cumulative progress notification: the transport
appends the piece to its response text and fires progress. -/
def deliverPiece (st : ConnState) (piece : Str) : Option (ConnState × List Ev) :=
  match st.xhr with
  | none => onStreamProgress st
  | some x =>
    onStreamProgress { st with xhr := some { x with responseText := x.responseText ++ piece } }

/-- Fold of deliverPiece over a list of pieces, accumulating events. -/
def deliverPieces (st : ConnState) : List Str → Option (ConnState × List Ev)
  | [] => some (st, [])
  | p :: ps =>
    match deliverPiece st p with
    | none => none
    | some (st1, evs1) =>
      match deliverPieces st1 ps with
      | none => none
      | some (st2, evs2) => some (st2, evs1 ++ evs2)

/-- An open, successfully connected instance with nothing received yet:
the start state for the chunk-boundary experiments. -/
def openState : ConnState :=
  { xhr := some { status := 200, responseText := [] }, readyState := OPEN,
    progressOfs := 0, chunk := [] }

/-- Full observable run of a response delivered as successive
cumulative progress notifications followed by the end-of-stream load
notification: the sequence of dispatched events. -/
def runStream (pieces : List Str) : Option (List Ev) :=
  match deliverPieces openState pieces with
  | none => none
  | some (st1, evs1) =>
    match onStreamLoaded st1 with
    | none => none
    | some (_, evs2) => some (evs1 ++ evs2)

end SSE203

namespace SpecSSE

/-!
Modelled from the spec: the repository's main file lib/sse.js is not
under src/ (src/lib/sse.test.js is its test suite, and no bundled copy
in src/ implements a lastEventId register or a reconnection delay), so
the parser state machine of spec.md section 4.1 is embedded here from
the spec's words: line tokenization with the three end-of-line styles,
comment lines, first-colon field split with a single leading space
stripped, the recognized field set, newline-joined data accumulation,
the NUL check on id values, the digits-only rule for retry, the
record-end lastEventId update, and dispatch suppression for records
whose data never appeared.
-/

/-- Modelled from the spec: connection-wide parser state of the missing
lib/sse.js, the lastEventId register (empty by default) and the
reconnection delay in milliseconds. -/
structure SpecConn where
  lastEventId : Str
  reconnectDelay : Nat
deriving DecidableEq, Repr

/-- Modelled from the spec: the transient per-record field accumulator
(id, event-type and data all start absent; data distinguishes the
unset default from the empty string). -/
structure SpecRecord where
  id : Option Str
  event : Option Str
  data : Option Str
deriving DecidableEq, Repr

/-- Modelled from the spec: a dispatched event carries the type, the
accumulated data, the record's own id (null when never set) and the
connection's lastEventId at dispatch time. -/
structure SpecEvent where
  type : Str
  data : Str
  id : Option Str
  lastEventId : Str
deriving DecidableEq, Repr

/-- Strip exactly one leading space, only when the first character is
a space. -/
def stripOneSpace : Str → Str
  | ' ' :: t => t
  | v => v

/-- Modelled from the spec: the field name and value of a line, or none
for empty lines and comment lines (first character the separator).
Without a colon the whole line is the field name with an empty value;
otherwise the first colon splits the line and one leading space of the
value is stripped. -/
def specField : Str → Option (Str × Str)
  | [] => none
  | ':' :: _ => none
  | line =>
    match firstColonIdx line with
    | none => some (line, [])
    | some idx => some (line.take idx, stripOneSpace (line.drop (idx + 1)))

/-- A value consisting solely of ASCII digits (and parseable as a
base-10 integer, so non-empty). -/
def digitsOnly (v : Str) : Bool :=
  match v with
  | [] => false
  | _ => v.all Char.isDigit

/-- Base-10 integer value of a digit string. -/
def natOfDigits (v : Str) : Nat :=
  v.foldl (fun n c => n * 10 + (c.toNat - 48)) 0

/-- The NUL character test on id values. -/
def hasNUL (v : Str) : Bool :=
  v.any (fun c => c.toNat = 0)

/-- Modelled from the spec: processing of one line of a record. Data is
appended with a newline separator; event overwrites the record's type;
id overwrites the record's id unless the value contains NUL; retry
with a digits-only value overwrites the reconnection delay; all other
lines are ignored. -/
def specProcLine (acc : SpecRecord × SpecConn) (rawLine : Str) : SpecRecord × SpecConn :=
  match specField rawLine with
  | none => acc
  | some (name, value) =>
    if name = dataK then
      match acc.1.data with
      | some d => ({ acc.1 with data := some (d ++ '\n' :: value) }, acc.2)
      | none => ({ acc.1 with data := some value }, acc.2)
    else if name = eventK then ({ acc.1 with event := some value }, acc.2)
    else if name = idK then
      if hasNUL value then acc else ({ acc.1 with id := some value }, acc.2)
    else if name = retryK then
      if digitsOnly value then (acc.1, { acc.2 with reconnectDelay := natOfDigits value })
      else acc
    else acc

/-- The empty record accumulator. -/
def initRecord : SpecRecord :=
  { id := none, event := none, data := none }

/-- Modelled from the spec: tokenizing one complete record. After the
line fold, an id the record carried updates lastEventId; when the
accumulated data is still unset no event is dispatched; otherwise one
event is dispatched with the record's event type (defaulting to
message), the accumulated data, the record's id and the updated
lastEventId. -/
def parseRecordSpec (conn : SpecConn) (chunk : Str) : SpecConn × Option SpecEvent :=
  let q := (splitLines chunk).foldl specProcLine (initRecord, conn)
  let conn2 :=
    match q.1.id with
    | some v => { q.2 with lastEventId := v }
    | none => q.2
  match q.1.data with
  | none => (conn2, none)
  | some d =>
    (conn2, some { type := q.1.event.getD messageK, data := d,
                   id := q.1.id, lastEventId := conn2.lastEventId })

/-- Modelled from the spec: the record splitter for the three boundary
pairs CRLF CRLF, LF LF and CR CR, leftmost first; the last piece is
the residual. -/
def splitBoundarySpec : Str → List Str
  | '\r' :: '\n' :: '\r' :: '\n' :: u => [] :: splitBoundarySpec u
  | '\n' :: '\n' :: u => [] :: splitBoundarySpec u
  | '\r' :: '\r' :: u => [] :: splitBoundarySpec u
  | c :: t => consHead c (splitBoundarySpec t)
  | [] => [[]]

/-- Fold of parseRecordSpec over a list of complete records,
accumulating the dispatched events. -/
def foldRecords (conn : SpecConn) : List Str → SpecConn × List SpecEvent
  | [] => (conn, [])
  | r :: rs =>
    let (c1, ev) := parseRecordSpec conn r
    let (c2, evs) := foldRecords c1 rs
    (c2, ev.toList ++ evs)

/-- Modelled from the spec: one-shot processing of a whole stream text
up to end-of-stream: strip one leading byte-order mark, split into
records, and treat the trailing fragment as a complete record when it
is non-empty. -/
def processSpecStream (conn : SpecConn) (text : Str) : SpecConn × List SpecEvent :=
  let t :=
    match text with
    | c :: rest => if c.toNat = 0xFEFF then rest else text
    | [] => text
  let parts := splitBoundarySpec t
  let residual := lastD parts
  foldRecords conn (dropTail parts ++ (if residual = [] then [] else [residual]))

/-- Whether a line is a data field line. -/
def isDataLine (l : Str) : Bool :=
  match specField l with
  | some (n, _) => n = dataK
  | none => false

/-- Whether any line of a record is a data field line: the independent
characterization used to state dispatch suppression. -/
def hasDataField (chunk : Str) : Bool :=
  (splitLines chunk).any isDataLine

/-- Accumulator step selecting the last NUL-free id value of a line
sequence. -/
def pickId (a : Option Str) (l : Str) : Option Str :=
  match specField l with
  | some (n, v) => if n = idK && !hasNUL v then some v else a
  | none => a

/-- The last NUL-free id value carried by a record, independently of
the record fold. -/
def lastIdValue (chunk : Str) : Option Str :=
  (splitLines chunk).foldl pickId none

/-- Accumulator step selecting the last digits-only retry value of a
line sequence. -/
def pickRetry (a : Option Nat) (l : Str) : Option Nat :=
  match specField l with
  | some (n, v) => if n = retryK && digitsOnly v then some (natOfDigits v) else a
  | none => a

/-- The last digits-only retry value carried by a record, as a base-10
integer, independently of the record fold. -/
def lastRetryValue (chunk : Str) : Option Nat :=
  (splitLines chunk).foldl pickRetry none

/-- The raw value of a line when it is a retry field line. -/
def retryValOfLine (l : Str) : Option Str :=
  match specField l with
  | some (n, v) => if n = retryK then some v else none
  | none => none

/-- The raw values of all retry field lines of a record, in order. -/
def retryFieldValues (chunk : Str) : List Str :=
  (splitLines chunk).filterMap retryValOfLine

/-- Accumulator step for the reconnection delay over one line: a
digits-only retry line overwrites it, every other line keeps it. -/
def pickRetryN (d : Nat) (l : Str) : Nat :=
  match specField l with
  | some (n, v) =>
    if n = retryK && digitsOnly v then natOfDigits v else d
  | none => d

end SpecSSE

namespace Listeners

/-!
Model of the listener registry and of dispatchEvent of
src/unnamed/part_003 (lines 100-155). JavaScript arrays are objects
with identity: removeEventListener rebinds this.listeners[type] to a
freshly built array, while an Array.prototype.every iteration already
under way keeps reading the original object, and addEventListener
pushes onto the existing object but every only visits the length
captured when the iteration started. The model therefore keeps the
arrays in a store indexed by allocation order (references) and binds
event types to references. Callbacks are identified by numbers; since
the events the library dispatches are non-cancelable CustomEvents,
defaultPrevented is always false and every never stops early, so a
callback's observable effect on the registry is a sequence of
addEventListener and removeEventListener calls, modelled as a list of
actions per callback. The single-slot on-type handler lives outside
this registry (dispatchEvent consults hasOwnProperty first); the model
covers dispatches with no such handler installed. -/

/-- One registry mutation a listener callback can perform. -/
inductive Act where
  | addA (t : String) (cb : Nat)
  | remA (t : String) (cb : Nat)
deriving DecidableEq, Repr

/-- The listener registry: arrays live in an allocation store, and the
listeners object maps event types to array references. -/
structure LStore where
  arrays : List (List Nat)
  table : List (String × Nat)
deriving DecidableEq, Repr

/-- Bind a type to a reference, replacing an existing binding. -/
def tblSet (tbl : List (String × Nat)) (t : String) (r : Nat) : List (String × Nat) :=
  match tbl with
  | [] => [(t, r)]
  | (u, s) :: rest => if u = t then (t, r) :: rest else (u, s) :: tblSet rest t r

/-- Remove a type's binding. -/
def tblDel (tbl : List (String × Nat)) (t : String) : List (String × Nat) :=
  tbl.filter (fun p => p.1 ≠ t)

/-- Look up a type's reference. -/
def tblGet (tbl : List (String × Nat)) (t : String) : Option Nat :=
  match tbl with
  | [] => none
  | (u, s) :: rest => if u = t then some s else tblGet rest t

/-- Model of addEventListener (src/unnamed/part_003 lines 100-108): an
absent type gets a fresh one-element array; an existing array gets the
callback pushed in place unless already present. -/
def addEL (s : LStore) (t : String) (cb : Nat) : LStore :=
  match tblGet s.table t with
  | none => { arrays := s.arrays ++ [[cb]], table := tblSet s.table t s.arrays.length }
  | some r =>
    let arr := s.arrays.getD r []
    if cb ∈ arr then s
    else { s with arrays := s.arrays.set r (arr ++ [cb]) }

/-- Model of removeEventListener (src/unnamed/part_003 lines 110-126):
absent type is a no-op; otherwise a new filtered array is built and,
when empty, the binding is deleted, else the type is rebound to the
new array (the original array object is never mutated). -/
def removeEL (s : LStore) (t : String) (cb : Nat) : LStore :=
  match tblGet s.table t with
  | none => s
  | some r =>
    let filtered := (s.arrays.getD r []).filter (fun x => x ≠ cb)
    if filtered = [] then { s with table := tblDel s.table t }
    else { arrays := s.arrays ++ [filtered], table := tblSet s.table t s.arrays.length }

/-- Interpretation of one registry action. -/
def applyAct (s : LStore) : Act → LStore
  | Act.addA t cb => addEL s t cb
  | Act.remA t cb => removeEL s t cb

/-- Interpretation of a callback's whole action list. -/
def runActs (s : LStore) : List Act → LStore
  | [] => s
  | a :: rest => runActs (applyAct s a) rest

/-- The every loop of dispatchEvent over the array bound to reference
r0, reading element i of the array object's current contents at each
step, running the invoked callback's actions, with the iteration count
k captured before the loop started. -/
def loopAux (beh : Nat → List Act) (r0 : Nat) : Nat → Nat → LStore → List Nat × LStore
  | _, 0, s => ([], s)
  | i, k + 1, s =>
    let cb := (s.arrays.getD r0 []).getD i 0
    let s1 := runActs s (beh cb)
    let rest := loopAux beh r0 (i + 1) k s1
    (cb :: rest.1, rest.2)

/-- Model of the listener part of dispatchEvent (src/unnamed/part_003
lines 147-152): with no array bound to the event type nothing runs;
otherwise every visits the captured length of the bound array,
invoking each callback, which may mutate the registry. Returns the
sequence of callbacks invoked. -/
def dispatchInvoked (beh : Nat → List Act) (s : LStore) (t : String) : List Nat :=
  match tblGet s.table t with
  | none => []
  | some r0 => (loopAux beh r0 0 (s.arrays.getD r0 []).length s).1

/-- The registered callbacks for a type, in registration order, at a
given instant. -/
def snapshotList (s : LStore) (t : String) : List Nat :=
  match tblGet s.table t with
  | none => []
  | some r0 => s.arrays.getD r0 []

end Listeners

/-- Join a list of strings with single newline separators. -/
def joinNL : List Str → Str
  | [] => []
  | [v] => v
  | v :: rest => v ++ '\n' :: joinNL rest

namespace SSE203

/-- The parsed value of a line when the line is a recognized data field
line of _parseEventChunk: right-trimmed, first colon at a positive
index, field name data, one space after the colon skipped. -/
def dataValueOfLine (rawLine : Str) : Option Str :=
  match lineField rawLine with
  | none => none
  | some (field, value) => if field = dataK then some value else none

/-- The values of the data field lines of a record, in order of
appearance: the independent characterization of what the accumulating
fold of _parseEventChunk joins together. -/
def dataValues (chunk : Str) : List Str :=
  (splitLines chunk).filterMap dataValueOfLine

/-- How an existing data accumulator combines with a list of further
data values. -/
def extendData (o : Option Str) (vs : List Str) : Option Str :=
  match o with
  | some d => some (joinNL (d :: vs))
  | none =>
    match vs with
    | [] => none
    | v :: rest => some (joinNL (v :: rest))

/-- The connection state of an open 200 stream after the progress
handler has consumed the cumulative response text s: everything is
read, and the residual buffer is the popped last piece of the record
split of s. -/
def stateOf (s : Str) : ConnState :=
  { xhr := some { status := 200, responseText := s }, readyState := OPEN,
    progressOfs := s.length, chunk := lastD (splitNN s) }

end SSE203

open SSE203

/-- Claim C10: on an instance constructed with start set to false on
which stream() was never called (no transport object, readyState
INITIALIZING), close() dereferences the null transport handle and
throws instead of being a no-op or transitioning to CLOSED. -/
theorem C10_theorem : close freshInstance = none := by
  decide

/-- Claim C4 (as stated) is refuted: in the state left by close() (no
transport handle, readyState CLOSED, residual buffer not cleared), a
late abort notification still dispatches an abort event and a late
load notification still dispatches a message event parsed from the
stale residual buffer. -/
theorem C4_counterexample :
    (onStreamAbort { xhr := none, readyState := CLOSED, progressOfs := 7,
                     chunk := ("data: x").toList }).map Prod.snd =
      some [Ev.aborted] ∧
    (onStreamLoaded { xhr := none, readyState := CLOSED, progressOfs := 7,
                      chunk := ("data: x").toList }).map Prod.snd =
      some [Ev.parsed { type := ("message").toList, data := ("x").toList, id := none }] := by
  decide

/-- Claim C4 (amended): after close() the state has a null transport
handle and readyState CLOSED; in any such state late progress and
readystatechange notifications dispatch no events, but a late error
notification dispatches an error event, a late abort notification
dispatches an abort event, and a late load notification dispatches the
parse of the stale residual buffer (an event whenever that buffer is
non-empty). -/
theorem C4_theorem (st : ConnState) (h1 : st.xhr = none)
    (h2 : st.readyState = CLOSED) :
    onStreamProgress st = some (st, []) ∧
    (∀ k, checkStreamClosed st k = (st, [])) ∧
    (∀ body, onStreamFailure st body = some (st, [Ev.error body])) ∧
    onStreamAbort st = some (st, [Ev.aborted]) ∧
    onStreamLoaded st =
      some ({ st with chunk := [] },
            (parseEventChunk st.chunk).toList.map Ev.parsed) := by
  have hc : close st = some (st, []) := by
    simp [close, h2]
  refine ⟨?_, ?_, ?_, ?_, ?_⟩
  · simp [onStreamProgress, h1]
  · intro k
    simp [checkStreamClosed, h1]
  · intro body
    simp [onStreamFailure, hc]
  · simp [onStreamAbort, hc]
  · simp [onStreamLoaded, onStreamProgress, h1]

/-- Witness for C4_theorem at a concrete post-close state. -/
theorem C4_witness :
    onStreamAbort { xhr := none, readyState := CLOSED, progressOfs := 0, chunk := [] } =
      some ({ xhr := none, readyState := CLOSED, progressOfs := 0, chunk := [] },
            [Ev.aborted]) :=
  (C4_theorem { xhr := none, readyState := CLOSED, progressOfs := 0, chunk := [] }
    rfl rfl).2.2.2.1

/-- Claim C8 (as stated) is refuted: a 201 status, a 2xx success, is
treated as failure by the progress handler, which compares the status
against 200 only; an error event (carrying the raw body but no status
code) is dispatched and the connection transitions to CLOSED. -/
theorem C8_counterexample :
    onStreamProgress { xhr := some { status := 201, responseText := ("ok").toList },
                       readyState := OPEN, progressOfs := 0, chunk := [] } =
      some ({ xhr := none, readyState := CLOSED, progressOfs := 0, chunk := [] },
            [Ev.error (("ok").toList), Ev.rsc CLOSED]) := by
  decide

/-- Helper: record parts dispatch only parsed events, never error
events. -/
theorem dispatchAll_no_error (ps : List Str) (b : Str) :
    Ev.error b ∉ dispatchAll ps := by
  induction ps with
  | nil => simp [dispatchAll]
  | cons p rest ih =>
    simp only [dispatchAll, List.foldr_cons]
    intro hmem
    rcases List.mem_append.mp hmem with h | h
    · unfold dispatchOf at h
      split at h
      · simp at h
      · rcases List.mem_map.mp h with ⟨e, _, he⟩
        exact Ev.noConfusion he
    · exact ih h

/-- Claim C8 (amended): with a live transport, a status other than 200
is treated as failure: an error event carrying the raw response body
(the status code is not attached) is dispatched and the ready state
transitions to CLOSED; conversely a status of exactly 200 never
dispatches an error event and never closes the connection from the
progress handler. The original claim's non-2xx criterion does not
match the code, which accepts only 200. -/
theorem C8_theorem (st : ConnState) (x : Xhr) (h1 : st.xhr = some x)
    (h2 : st.readyState ≠ CLOSED) :
    (x.status ≠ 200 →
      onStreamProgress st =
        some ({ st with xhr := none, readyState := CLOSED },
              [Ev.error x.responseText, Ev.rsc CLOSED])) ∧
    (x.status = 200 →
      ∃ st2 evs, onStreamProgress st = some (st2, evs) ∧
        st2.readyState ≠ CLOSED ∧ ∀ b, Ev.error b ∉ evs) := by
  constructor
  · intro hs
    have hc : close st =
        some ({ st with xhr := none, readyState := CLOSED }, [Ev.rsc CLOSED]) := by
      simp [close, h2, h1, setReadyState]
    simp [onStreamProgress, h1, hs, onStreamFailure, hc]
  · intro hs
    by_cases hrs : st.readyState = CONNECTING
    · have heq : onStreamProgress st =
          some ({ st with readyState := OPEN,
                          progressOfs := st.progressOfs + (x.responseText.drop st.progressOfs).length,
                          chunk := lastD (splitRecords (st.chunk ++ x.responseText.drop st.progressOfs)) },
                Ev.opened :: Ev.rsc OPEN ::
                  dispatchAll (dropTail (splitRecords (st.chunk ++ x.responseText.drop st.progressOfs)))) := by
        simp [onStreamProgress, h1, hs, hrs, setReadyState]
      refine ⟨_, _, heq, ?_, ?_⟩
      · simp [OPEN, CLOSED]
      · intro b hmem
        rcases List.mem_cons.mp hmem with h | h
        · exact Ev.noConfusion h
        · rcases List.mem_cons.mp h with h | h
          · exact Ev.noConfusion h
          · exact dispatchAll_no_error _ _ h
    · have heq : onStreamProgress st =
          some ({ st with progressOfs := st.progressOfs + (x.responseText.drop st.progressOfs).length,
                          chunk := lastD (splitRecords (st.chunk ++ x.responseText.drop st.progressOfs)) },
                dispatchAll (dropTail (splitRecords (st.chunk ++ x.responseText.drop st.progressOfs)))) := by
        simp [onStreamProgress, h1, hs, hrs]
      refine ⟨_, _, heq, ?_, ?_⟩
      · simpa using h2
      · intro b
        exact dispatchAll_no_error
          (dropTail (splitRecords (st.chunk ++ x.responseText.drop st.progressOfs))) b

/-- Witness for C8_theorem: a 404 status from an open state dispatches
the error event with the body and closes, and a 200 status from the
same shape of state dispatches no error. -/
theorem C8_witness :
    onStreamProgress { xhr := some { status := 404, responseText := ("nope").toList },
                       readyState := OPEN, progressOfs := 0, chunk := [] } =
      some ({ xhr := none, readyState := CLOSED, progressOfs := 0, chunk := [] },
            [Ev.error (("nope").toList), Ev.rsc CLOSED]) := by
  have h := (C8_theorem
    { xhr := some { status := 404, responseText := ("nope").toList },
      readyState := OPEN, progressOfs := 0, chunk := [] }
    { status := 404, responseText := ("nope").toList }
    rfl (by decide)).1 (by decide)
  exact h

/-- Claim C5: the parser of src/unnamed/part_003 right-trims every
line before splitting it, so trailing whitespace of a field value is
removed, contrary to the claim; the record with line data: hello and a
trailing space yields the value hello without the space, both at the
record level and through the whole stream pipeline. -/
theorem C5_theorem :
    parseEventChunk (("data: hello ").toList) =
      some { type := ("message").toList, data := ("hello").toList, id := none } ∧
    runStream [("data: hello \n\n").toList] =
      some [Ev.parsed { type := ("message").toList, data := ("hello").toList, id := none }] ∧
    ("hello").toList ≠ ("hello ").toList := by
  refine ⟨by decide, by decide, by decide⟩

/-- Claim C6: a non-empty line without a colon is discarded entirely by
the parser of src/unnamed/part_003 (its index-at-most-zero test lumps
the no-colon case together with comments), so a bare data line
contributes nothing (the claim expects an empty data line joined with
a newline) and a bare id line does not reset the id (the claim expects
the empty string). -/
theorem C6_theorem :
    parseEventChunk (("data: foo\ndata").toList) =
      some { type := ("message").toList, data := ("foo").toList, id := none } ∧
    ("foo").toList ≠ ("foo\n").toList ∧
    (parseEventChunk (("id\ndata: x").toList)).map PEvent.id = some none := by
  refine ⟨by decide, by decide, by decide⟩

/-- Helper: gluing an already-joined data accumulator onto further
values agrees with joining the flat list. -/
theorem joinNL_glue (d v : Str) (vs : List Str) :
    joinNL ((d ++ '\n' :: v) :: vs) = joinNL (d :: v :: vs) := by
  cases vs with
  | nil => simp [joinNL]
  | cons w ws => simp [joinNL, List.append_assoc]

/-- Helper: a line that is not a data line leaves the accumulated data
unchanged. -/
theorem procLine_data_none (e : RawEvent) (l : Str) (h : dataValueOfLine l = none) :
    (procLine e l).data = e.data := by
  unfold procLine
  unfold dataValueOfLine at h
  cases hlf : lineField l with
  | none => simp [hlf]
  | some fv =>
    obtain ⟨f, v⟩ := fv
    simp only [hlf] at h ⊢
    by_cases hd : f = dataK
    · rw [if_pos hd] at h
      exact absurd h (by simp)
    · rw [if_neg hd]
      by_cases he : f = eventK
      · rw [if_pos he]
      · rw [if_neg he]
        by_cases hi : f = idK
        · rw [if_pos hi]
        · rw [if_neg hi]
          by_cases hr : f = retryK
          · rw [if_pos hr]
          · rw [if_neg hr]

/-- Helper: a data line with value v extends the accumulated data the
way _parseEventChunk does. -/
theorem procLine_data_some (e : RawEvent) (l : Str) (v : Str)
    (h : dataValueOfLine l = some v) :
    (procLine e l).data =
      match e.data with
      | none => some v
      | some d => some (d ++ '\n' :: v) := by
  unfold procLine
  unfold dataValueOfLine at h
  cases hlf : lineField l with
  | none => simp [hlf] at h
  | some fv =>
    obtain ⟨f, w⟩ := fv
    simp only [hlf] at h ⊢
    by_cases hd : f = dataK
    · rw [if_pos hd] at h ⊢
      cases h
      cases e.data <;> rfl
    · rw [if_neg hd] at h
      exact absurd h (by simp)

/-- Helper: the data accumulated by the fold of _parseEventChunk is the
newline join of the data line values, extended onto the incoming
accumulator. -/
theorem fold_data (ls : List Str) : ∀ e : RawEvent,
    ((ls.foldl procLine e).data) = extendData e.data (ls.filterMap dataValueOfLine) := by
  induction ls with
  | nil =>
    intro e
    cases h : e.data <;> simp [extendData, joinNL, h]
  | cons l rest ih =>
    intro e
    cases hv : dataValueOfLine l with
    | none =>
      simp only [List.foldl_cons, List.filterMap_cons, hv]
      rw [ih (procLine e l), procLine_data_none e l hv]
    | some v =>
      simp only [List.foldl_cons, List.filterMap_cons, hv]
      rw [ih (procLine e l), procLine_data_some e l v hv]
      cases hd : e.data with
      | none => rfl
      | some d =>
        exact congrArg some (joinNL_glue d v (List.filterMap dataValueOfLine rest))

/-- Claim C7: a record whose data line count is at least two yields
exactly one dispatched event, whose data is the values of all its data
lines joined with single newlines, in order of appearance. -/
theorem C7_theorem (chunk : Str) (h : 2 ≤ (dataValues chunk).length) :
    ∃ ev, parseEventChunk chunk = some ev ∧ ev.data = joinNL (dataValues chunk) := by
  have hne : chunk ≠ [] := by
    intro hc
    subst hc
    exact absurd h (by decide)
  have hfold := fold_data (splitLines chunk) initRawEvent
  refine ⟨{ type := ((splitLines chunk).foldl procLine initRawEvent).event,
            data := joinNL (dataValues chunk),
            id := ((splitLines chunk).foldl procLine initRawEvent).id }, ?_, rfl⟩
  unfold parseEventChunk
  rw [if_neg hne]
  have hdv : ((splitLines chunk).foldl procLine initRawEvent).data =
      some (joinNL (dataValues chunk)) := by
    rw [hfold]
    show extendData none (dataValues chunk) = _
    cases hl : dataValues chunk with
    | nil => rw [hl] at h; simp at h
    | cons a t => rfl
  simp [hdv]

/-- Witness for C7_theorem at the record of the claim's example, with
the pipeline run of the full input dispatching exactly that event. -/
theorem C7_witness :
    (2 ≤ (dataValues (("data: a\ndata: b").toList)).length) ∧
    (∃ ev, parseEventChunk (("data: a\ndata: b").toList) = some ev ∧
      ev.data = joinNL (dataValues (("data: a\ndata: b").toList))) ∧
    joinNL (dataValues (("data: a\ndata: b").toList)) = ("a\nb").toList ∧
    runStream [("data: a\ndata: b\n\n").toList] =
      some [Ev.parsed { type := ("message").toList, data := ("a\nb").toList, id := none }] :=
  ⟨by decide, C7_theorem (("data: a\ndata: b").toList) (by decide), by decide, by decide⟩

/-- Helper: one spec-model line step never changes lastEventId. -/
theorem specStep_lei (p : SpecSSE.SpecRecord × SpecSSE.SpecConn) (l : Str) :
    ((SpecSSE.specProcLine p l).2).lastEventId = p.2.lastEventId := by
  cases hf : SpecSSE.specField l with
  | none => simp [SpecSSE.specProcLine, hf]
  | some nv =>
    obtain ⟨n, v⟩ := nv
    simp only [SpecSSE.specProcLine, hf]
    by_cases hd : n = dataK
    · rw [if_pos hd]
      cases p.1.data <;> rfl
    · rw [if_neg hd]
      by_cases he : n = eventK
      · rw [if_pos he]
      · rw [if_neg he]
        by_cases hi : n = idK
        · rw [if_pos hi]
          by_cases hn : SpecSSE.hasNUL v
          · rw [if_pos hn]
          · rw [if_neg hn]
        · rw [if_neg hi]
          by_cases hr : n = retryK
          · rw [if_pos hr]
            by_cases hg : SpecSSE.digitsOnly v
            · rw [if_pos hg]
            · rw [if_neg hg]
          · rw [if_neg hr]

/-- Helper: lastEventId survives the whole spec-model line fold. -/
theorem specFold_lei (ls : List Str) : ∀ p : SpecSSE.SpecRecord × SpecSSE.SpecConn,
    ((ls.foldl SpecSSE.specProcLine p).2).lastEventId = p.2.lastEventId := by
  induction ls with
  | nil => intro p; rfl
  | cons l rest ih =>
    intro p
    rw [List.foldl_cons, ih (SpecSSE.specProcLine p l), specStep_lei]

/-- Helper: one spec-model line step updates the record id exactly as
the last-id accumulator does. -/
theorem specStep_id (p : SpecSSE.SpecRecord × SpecSSE.SpecConn) (l : Str) :
    ((SpecSSE.specProcLine p l).1).id = SpecSSE.pickId p.1.id l := by
  cases hf : SpecSSE.specField l with
  | none => simp [SpecSSE.specProcLine, SpecSSE.pickId, hf]
  | some nv =>
    obtain ⟨n, v⟩ := nv
    simp only [SpecSSE.specProcLine, SpecSSE.pickId, hf]
    by_cases hd : n = dataK
    · have hni : n ≠ idK := by rw [hd]; decide
      simp only [if_pos hd, hni, Bool.false_and, if_neg]
      cases p.1.data <;> simp
    · rw [if_neg hd]
      by_cases he : n = eventK
      · have hni : n ≠ idK := by rw [he]; decide
        simp [if_pos he, hni]
      · rw [if_neg he]
        by_cases hi : n = idK
        · by_cases hn : SpecSSE.hasNUL v
          · simp [hi, hn]
          · simp [hi, hn]
        · rw [if_neg hi]
          by_cases hr : n = retryK
          · by_cases hg : SpecSSE.digitsOnly v
            · simp [if_pos hr, hg, hi]
            · simp [if_pos hr, hg, hi]
          · simp [if_neg hr, hi]

/-- Helper: record id over the whole spec-model line fold. -/
theorem specFold_id (ls : List Str) : ∀ p : SpecSSE.SpecRecord × SpecSSE.SpecConn,
    ((ls.foldl SpecSSE.specProcLine p).1).id = ls.foldl SpecSSE.pickId p.1.id := by
  induction ls with
  | nil => intro p; rfl
  | cons l rest ih =>
    intro p
    rw [List.foldl_cons, List.foldl_cons, ih (SpecSSE.specProcLine p l), specStep_id]

/-- Helper: a non-data line leaves the spec-model record data alone. -/
theorem specStep_data_none (p : SpecSSE.SpecRecord × SpecSSE.SpecConn) (l : Str)
    (h : SpecSSE.isDataLine l = false) :
    ((SpecSSE.specProcLine p l).1).data = p.1.data := by
  unfold SpecSSE.isDataLine at h
  cases hf : SpecSSE.specField l with
  | none => simp [SpecSSE.specProcLine, hf]
  | some nv =>
    obtain ⟨n, v⟩ := nv
    rw [hf] at h
    simp only [decide_eq_false_iff_not] at h
    simp only [SpecSSE.specProcLine, hf]
    rw [if_neg h]
    by_cases he : n = eventK
    · rw [if_pos he]
    · rw [if_neg he]
      by_cases hi : n = idK
      · rw [if_pos hi]
        by_cases hn : SpecSSE.hasNUL v
        · rw [if_pos hn]
        · rw [if_neg hn]
      · rw [if_neg hi]
        by_cases hr : n = retryK
        · rw [if_pos hr]
          by_cases hg : SpecSSE.digitsOnly v
          · rw [if_pos hg]
          · rw [if_neg hg]
        · rw [if_neg hr]

/-- Helper: with no data line anywhere, the spec-model fold keeps the
record data at its incoming value. -/
theorem specFold_data_none (ls : List Str) :
    ∀ p : SpecSSE.SpecRecord × SpecSSE.SpecConn,
    (∀ l ∈ ls, SpecSSE.isDataLine l = false) →
    ((ls.foldl SpecSSE.specProcLine p).1).data = p.1.data := by
  induction ls with
  | nil => intro p _; rfl
  | cons l rest ih =>
    intro p hall
    rw [List.foldl_cons, ih (SpecSSE.specProcLine p l)
        (fun x hx => hall x (List.mem_cons_of_mem l hx)),
      specStep_data_none p l (hall l (List.mem_cons_self l rest))]

/-- Claim C2 (spec-modelled): on a record with no data field line, no
event is dispatched, but lastEventId is still updated from the
record's last valid id line when one exists. -/
theorem C2_theorem (conn : SpecSSE.SpecConn) (chunk : Str)
    (h : SpecSSE.hasDataField chunk = false) :
    (SpecSSE.parseRecordSpec conn chunk).2 = none ∧
    (SpecSSE.parseRecordSpec conn chunk).1.lastEventId =
      (SpecSSE.lastIdValue chunk).getD conn.lastEventId := by
  have hall : ∀ l ∈ splitLines chunk, SpecSSE.isDataLine l = false := by
    unfold SpecSSE.hasDataField at h
    intro l hl
    exact Bool.eq_false_iff.mpr ((List.any_eq_false.mp h) l hl)
  have hdata : ((splitLines chunk).foldl SpecSSE.specProcLine
      (SpecSSE.initRecord, conn)).1.data = none :=
    specFold_data_none (splitLines chunk) (SpecSSE.initRecord, conn) hall
  have hid : ((splitLines chunk).foldl SpecSSE.specProcLine
      (SpecSSE.initRecord, conn)).1.id = SpecSSE.lastIdValue chunk :=
    specFold_id (splitLines chunk) (SpecSSE.initRecord, conn)
  have hlei : ((splitLines chunk).foldl SpecSSE.specProcLine
      (SpecSSE.initRecord, conn)).2.lastEventId = conn.lastEventId :=
    specFold_lei (splitLines chunk) (SpecSSE.initRecord, conn)
  unfold SpecSSE.parseRecordSpec
  dsimp only
  rw [hdata]
  cases hv : SpecSSE.lastIdValue chunk with
  | none =>
    rw [hv] at hid
    rw [hid]
    exact ⟨rfl, hlei⟩
  | some v =>
    rw [hv] at hid
    rw [hid]
    exact ⟨rfl, rfl⟩

/-- Witness for C2_theorem: the record of the spec's example carries
only an id line, dispatches nothing and sets lastEventId to 5; the
one-shot pipeline on the full input does the same. -/
theorem C2_witness :
    SpecSSE.hasDataField (("id: 5").toList) = false ∧
    ((SpecSSE.parseRecordSpec { lastEventId := [], reconnectDelay := 3000 }
        (("id: 5").toList)).2 = none ∧
      (SpecSSE.parseRecordSpec { lastEventId := [], reconnectDelay := 3000 }
        (("id: 5").toList)).1.lastEventId =
        (SpecSSE.lastIdValue (("id: 5").toList)).getD [] ) ∧
    SpecSSE.processSpecStream { lastEventId := [], reconnectDelay := 3000 }
        (("id: 5\n\n").toList) =
      ({ lastEventId := ("5").toList, reconnectDelay := 3000 }, []) :=
  ⟨by decide,
   C2_theorem { lastEventId := [], reconnectDelay := 3000 } (("id: 5").toList) (by decide),
   by decide⟩

/-- Helper: one spec-model line step updates the reconnection delay
exactly as the last-retry accumulator does. -/
theorem specStep_delay (p : SpecSSE.SpecRecord × SpecSSE.SpecConn) (l : Str) :
    ((SpecSSE.specProcLine p l).2).reconnectDelay =
      SpecSSE.pickRetryN p.2.reconnectDelay l := by
  cases hf : SpecSSE.specField l with
  | none => simp [SpecSSE.specProcLine, SpecSSE.pickRetryN, hf]
  | some nv =>
    obtain ⟨n, v⟩ := nv
    simp only [SpecSSE.specProcLine, SpecSSE.pickRetryN, hf]
    by_cases hd : n = dataK
    · have hnr : n ≠ retryK := by rw [hd]; decide
      simp only [if_pos hd, hnr, Bool.false_and, if_neg]
      cases p.1.data <;> simp
    · rw [if_neg hd]
      by_cases he : n = eventK
      · have hnr : n ≠ retryK := by rw [he]; decide
        simp [if_pos he, hnr]
      · rw [if_neg he]
        by_cases hi : n = idK
        · have hnr : n ≠ retryK := by rw [hi]; decide
          by_cases hn : SpecSSE.hasNUL v
          · simp [if_pos hi, hn, hnr]
          · simp [if_pos hi, hn, hnr]
        · rw [if_neg hi]
          by_cases hr : n = retryK
          · by_cases hg : SpecSSE.digitsOnly v
            · simp [if_pos hr, hg, hr]
            · simp [if_pos hr, hg, hr]
          · simp [if_neg hr, hr]

/-- Helper: the reconnection delay over the whole spec-model fold. -/
theorem specFold_delay (ls : List Str) : ∀ p : SpecSSE.SpecRecord × SpecSSE.SpecConn,
    ((ls.foldl SpecSSE.specProcLine p).2).reconnectDelay =
      ls.foldl SpecSSE.pickRetryN p.2.reconnectDelay := by
  induction ls with
  | nil => intro p; rfl
  | cons l rest ih =>
    intro p
    rw [List.foldl_cons, List.foldl_cons, ih (SpecSSE.specProcLine p l), specStep_delay]

/-- Helper: the option-valued and default-valued retry accumulators
agree. -/
theorem pickRetry_getD (ls : List Str) : ∀ (o : Option Nat) (d : Nat),
    (ls.foldl SpecSSE.pickRetry o).getD d = ls.foldl SpecSSE.pickRetryN (o.getD d) := by
  induction ls with
  | nil => intro o d; rfl
  | cons l rest ih =>
    intro o d
    rw [List.foldl_cons, List.foldl_cons, ih]
    congr 1
    cases hf : SpecSSE.specField l with
    | none => simp [SpecSSE.pickRetry, SpecSSE.pickRetryN, hf]
    | some nv =>
      obtain ⟨n, v⟩ := nv
      simp only [SpecSSE.pickRetry, SpecSSE.pickRetryN, hf]
      by_cases hb : (n = retryK && SpecSSE.digitsOnly v) = true
      · rw [if_pos hb, if_pos hb]
        rfl
      · rw [if_neg hb, if_neg hb]

/-- Helper: a fold over lines carrying no retry value keeps the
accumulator. -/
theorem pickRetry_no_retry (ls : List Str) : ∀ (o : Option Nat),
    ls.filterMap SpecSSE.retryValOfLine = [] →
    ls.foldl SpecSSE.pickRetry o = o := by
  induction ls with
  | nil => intro o _; rfl
  | cons l rest ih =>
    intro o h
    rw [List.filterMap_cons] at h
    cases hf : SpecSSE.retryValOfLine l with
    | some v => rw [hf] at h; exact absurd h (by simp)
    | none =>
      rw [hf] at h
      rw [List.foldl_cons, ih (SpecSSE.pickRetry o l) h]
      cases hg : SpecSSE.specField l with
      | none => simp [SpecSSE.pickRetry, hg]
      | some nv =>
        obtain ⟨n, v⟩ := nv
        simp only [SpecSSE.retryValOfLine, hg] at hf
        simp only [SpecSSE.pickRetry, hg]
        by_cases hr : n = retryK
        · rw [if_pos hr] at hf
          exact absurd hf (by simp)
        · have hb : (n = retryK && SpecSSE.digitsOnly v) = false := by
            simp [hr]
          rw [hb]
          simp

/-- Helper: a fold over lines carrying exactly one retry value v ends
in that value when it is digits-only and keeps the accumulator
otherwise. -/
theorem pickRetry_single (ls : List Str) : ∀ (o : Option Nat) (v : Str),
    ls.filterMap SpecSSE.retryValOfLine = [v] →
    ls.foldl SpecSSE.pickRetry o =
      if SpecSSE.digitsOnly v then some (SpecSSE.natOfDigits v) else o := by
  induction ls with
  | nil => intro o v h; exact absurd h (by simp)
  | cons l rest ih =>
    intro o v h
    rw [List.filterMap_cons] at h
    cases hf : SpecSSE.retryValOfLine l with
    | none =>
      rw [hf] at h
      rw [List.foldl_cons, ih (SpecSSE.pickRetry o l) v h]
      congr 1
      cases hg : SpecSSE.specField l with
      | none => simp [SpecSSE.pickRetry, hg]
      | some nv =>
        obtain ⟨n, w⟩ := nv
        simp only [SpecSSE.retryValOfLine, hg] at hf
        simp only [SpecSSE.pickRetry, hg]
        by_cases hr : n = retryK
        · rw [if_pos hr] at hf
          exact absurd hf (by simp)
        · have hb : (n = retryK && SpecSSE.digitsOnly w) = false := by
            simp [hr]
          rw [hb]
          simp
    | some w =>
      rw [hf] at h
      have hw : w = v ∧ rest.filterMap SpecSSE.retryValOfLine = [] := by
        have hcc := List.cons_eq_cons.mp h
        exact ⟨hcc.1, hcc.2⟩
      obtain ⟨hwv, hrest⟩ := hw
      rw [hwv] at hf
      rw [List.foldl_cons, pickRetry_no_retry rest (SpecSSE.pickRetry o l) hrest]
      cases hg : SpecSSE.specField l with
      | none =>
        simp only [SpecSSE.retryValOfLine, hg] at hf
        exact absurd hf (by simp)
      | some nv =>
        obtain ⟨n, u⟩ := nv
        simp only [SpecSSE.retryValOfLine, hg] at hf
        simp only [SpecSSE.pickRetry, hg]
        by_cases hr : n = retryK
        · rw [if_pos hr] at hf
          have hu : u = v := Option.some.inj hf
          rw [hu]
          by_cases hg2 : SpecSSE.digitsOnly v
          · simp [hr, hg2]
          · simp [hr, hg2]
        · rw [if_neg hr] at hf
          exact absurd hf (by simp)

/-- Helper: the reconnection delay emerging from parseRecordSpec is the
one of the line fold (the lastEventId update does not touch it). -/
theorem parseRecordSpec_delay (conn : SpecSSE.SpecConn) (chunk : Str) :
    (SpecSSE.parseRecordSpec conn chunk).1.reconnectDelay =
      ((splitLines chunk).foldl SpecSSE.specProcLine
        (SpecSSE.initRecord, conn)).2.reconnectDelay := by
  unfold SpecSSE.parseRecordSpec
  cases h1 : ((splitLines chunk).foldl SpecSSE.specProcLine
      (SpecSSE.initRecord, conn)).1.data <;>
    cases h2 : ((splitLines chunk).foldl SpecSSE.specProcLine
      (SpecSSE.initRecord, conn)).1.id <;>
    simp [h1, h2]

/-- Claim C3 (spec-modelled): for a record carrying exactly one retry
field line with raw value v, the reconnection delay is overwritten
with the base-10 value of v exactly when v consists solely of ASCII
digits, and is left unchanged otherwise. -/
theorem C3_theorem (conn : SpecSSE.SpecConn) (chunk : Str) (v : Str)
    (h : SpecSSE.retryFieldValues chunk = [v]) :
    (SpecSSE.digitsOnly v = true →
      (SpecSSE.parseRecordSpec conn chunk).1.reconnectDelay = SpecSSE.natOfDigits v) ∧
    (SpecSSE.digitsOnly v = false →
      (SpecSSE.parseRecordSpec conn chunk).1.reconnectDelay = conn.reconnectDelay) := by
  have hbase : (SpecSSE.parseRecordSpec conn chunk).1.reconnectDelay =
      ((splitLines chunk).foldl SpecSSE.pickRetry none).getD conn.reconnectDelay := by
    rw [parseRecordSpec_delay, specFold_delay, pickRetry_getD]
    rfl
  unfold SpecSSE.retryFieldValues at h
  rw [hbase, pickRetry_single (splitLines chunk) none v h]
  constructor
  · intro hd
    rw [if_pos hd]
    rfl
  · intro hd
    rw [if_neg (by simp [hd])]
    rfl

/-- Witness for C3_theorem: retry 5000 overwrites the delay with 5000
and retry 5000ms leaves the default 3000 untouched. -/
theorem C3_witness :
    ((SpecSSE.parseRecordSpec { lastEventId := [], reconnectDelay := 3000 }
        (("retry: 5000\ndata: t").toList)).1.reconnectDelay = 5000) ∧
    ((SpecSSE.parseRecordSpec { lastEventId := [], reconnectDelay := 3000 }
        (("retry: 5000ms\ndata: t").toList)).1.reconnectDelay = 3000) :=
  ⟨by
    have h := (C3_theorem { lastEventId := [], reconnectDelay := 3000 }
      (("retry: 5000\ndata: t").toList) (("5000").toList) (by decide)).1 (by decide)
    simpa using h,
   by
    have h := (C3_theorem { lastEventId := [], reconnectDelay := 3000 }
      (("retry: 5000ms\ndata: t").toList) (("5000ms").toList) (by decide)).2 (by decide)
    simpa using h⟩

/-- Helper: getD past the end yields the default. -/
theorem listGetD_out {α : Type} (l : List α) (d : α) : ∀ r, l.length ≤ r → l.getD r d = d := by
  induction l with
  | nil => intro r _; cases r <;> rfl
  | cons a t ih =>
    intro r h
    cases r with
    | zero => simp at h
    | succ n =>
      have := ih n (by simpa using h)
      simpa using this

/-- Helper: getD inside the left part of an append. -/
theorem listGetD_append_lt {α : Type} (l m : List α) (d : α) :
    ∀ r, r < l.length → (l ++ m).getD r d = l.getD r d := by
  induction l with
  | nil => intro r h; simp at h
  | cons a t ih =>
    intro r h
    cases r with
    | zero => rfl
    | succ n =>
      have := ih n (by simpa using h)
      simpa using this

/-- Helper: getD on a one-element extension. -/
theorem listGetD_append_one {α : Type} (l : List α) (x d : α) (r : Nat) :
    (l ++ [x]).getD r d =
      if r < l.length then l.getD r d else if r = l.length then x else d := by
  by_cases h1 : r < l.length
  · rw [if_pos h1, listGetD_append_lt l [x] d r h1]
  · rw [if_neg h1]
    by_cases h2 : r = l.length
    · rw [if_pos h2, h2]
      clear h1 h2
      induction l with
      | nil => rfl
      | cons a t ih => simp only [List.cons_append, List.length_cons, List.getD_cons_succ, ih]
    · rw [if_neg h2]
      have hge : (l ++ [x]).length ≤ r := by
        simp only [List.length_append, List.length_cons, List.length_nil]
        omega
      exact listGetD_out (l ++ [x]) d r hge

/-- Helper: getD after List.set. -/
theorem listGetD_set {α : Type} (l : List α) : ∀ (i : Nat) (a d : α) (r : Nat),
    (l.set i a).getD r d = if i = r ∧ i < l.length then a else l.getD r d := by
  induction l with
  | nil =>
    intro i a d r
    simp
  | cons b t ih =>
    intro i a d r
    cases i with
    | zero =>
      cases r with
      | zero => simp
      | succ n => simp
    | succ j =>
      cases r with
      | zero => simp
      | succ n =>
        show (t.set j a).getD n d =
          if j + 1 = n + 1 ∧ j + 1 < (b :: t).length then a else (b :: t).getD (n + 1) d
        rw [ih j a d n]
        have hlen : (b :: t).length = t.length + 1 := rfl
        by_cases hc : j = n ∧ j < t.length
        · rw [if_pos hc, if_pos (by rw [hlen]; omega)]
        · rw [if_neg hc, if_neg (by rw [hlen]; omega)]
          rfl

/-- Helper: dropping r elements exposes element r in front. -/
theorem listDrop_getD {α : Type} (l : List α) (d : α) :
    ∀ r, r < l.length → l.drop r = l.getD r d :: l.drop (r + 1) := by
  induction l with
  | nil => intro r h; simp at h
  | cons a t ih =>
    intro r h
    cases r with
    | zero => simp
    | succ n =>
      have := ih n (by simpa using h)
      simpa using this

open Listeners

/-- Helper: one registry action can only extend the contents of any
array reference (in place pushes append; removals allocate fresh
arrays and rebind the table, leaving the old object as it was). -/
theorem applyAct_extend (s : LStore) (a : Act) (r : Nat) :
    ∃ e, ((applyAct s a).arrays.getD r []) = (s.arrays.getD r []) ++ e := by
  cases a with
  | addA t cb =>
    cases hg : tblGet s.table t with
    | none =>
      simp only [applyAct, addEL, hg]
      refine ⟨if r = s.arrays.length then [cb] else [], ?_⟩
      rw [listGetD_append_one]
      by_cases h1 : r < s.arrays.length
      · rw [if_pos h1, if_neg (by omega), List.append_nil]
      · by_cases h2 : r = s.arrays.length
        · rw [if_neg h1, if_pos h2,
            listGetD_out s.arrays [] r (by omega), List.nil_append]
        · rw [if_neg h1, if_neg h2,
            listGetD_out s.arrays [] r (by omega), List.nil_append]
    | some r1 =>
      by_cases hm : cb ∈ s.arrays.getD r1 []
      · simp only [applyAct, addEL, hg, if_pos hm]
        exact ⟨[], (List.append_nil _).symm⟩
      · simp only [applyAct, addEL, hg, if_neg hm]
        refine ⟨if r1 = r ∧ r1 < s.arrays.length then [cb] else [], ?_⟩
        rw [listGetD_set]
        by_cases hc : r1 = r ∧ r1 < s.arrays.length
        · rw [if_pos hc, if_pos hc, hc.1]
        · rw [if_neg hc, if_neg hc, List.append_nil]
  | remA t cb =>
    cases hg : tblGet s.table t with
    | none =>
      simp only [applyAct, removeEL, hg]
      exact ⟨[], (List.append_nil _).symm⟩
    | some r1 =>
      by_cases hz : (s.arrays.getD r1 []).filter (fun x => x ≠ cb) = []
      · simp only [applyAct, removeEL, hg, if_pos hz]
        exact ⟨[], (List.append_nil _).symm⟩
      · simp only [applyAct, removeEL, hg, if_neg hz]
        refine ⟨if r < s.arrays.length then [] else
          if r = s.arrays.length then (s.arrays.getD r1 []).filter (fun x => x ≠ cb)
          else [], ?_⟩
        rw [listGetD_append_one]
        by_cases h1 : r < s.arrays.length
        · simp [h1]
        · by_cases h2 : r = s.arrays.length
          · simp [h1, h2, listGetD_out s.arrays [] s.arrays.length (Nat.le_refl _)]
          · have hout : s.arrays[r]? = none := List.getElem?_eq_none (by omega)
            simp [h1, h2, hout]

/-- Helper: a whole action list can only extend any array reference. -/
theorem runActs_extend (acts : List Act) : ∀ (s : LStore) (r : Nat),
    ∃ e, ((runActs s acts).arrays.getD r []) = (s.arrays.getD r []) ++ e := by
  induction acts with
  | nil => intro s r; exact ⟨[], (List.append_nil _).symm⟩
  | cons a rest ih =>
    intro s r
    obtain ⟨e1, he1⟩ := applyAct_extend s a r
    obtain ⟨e2, he2⟩ := ih (applyAct s a) r
    exact ⟨e1 ++ e2, by rw [runActs, he2, he1, List.append_assoc]⟩

/-- Helper: the every loop only ever invokes the elements of the
snapshot taken when it started, in order, whatever the callbacks do to
the registry. -/
theorem loopAux_snap (beh : Nat → List Act) (r0 : Nat) (snap : List Nat) :
    ∀ (k i : Nat) (s : LStore) (ext : List Nat),
      s.arrays.getD r0 [] = snap ++ ext → i + k = snap.length →
      (loopAux beh r0 i k s).1 = snap.drop i := by
  intro k
  induction k with
  | zero =>
    intro i s ext _ hlen
    have : i = snap.length := by omega
    rw [this, List.drop_length]
    rfl
  | succ k ih =>
    intro i s ext hs hlen
    have hi : i < snap.length := by omega
    have hcb : (s.arrays.getD r0 []).getD i 0 = snap.getD i 0 := by
      rw [hs, listGetD_append_lt snap ext 0 i hi]
    obtain ⟨e, he⟩ := runActs_extend (beh ((s.arrays.getD r0 []).getD i 0)) s r0
    have hs1 : (runActs s (beh ((s.arrays.getD r0 []).getD i 0))).arrays.getD r0 [] =
        snap ++ (ext ++ e) := by
      rw [he, hs, List.append_assoc]
    have hrest := ih (i + 1) (runActs s (beh ((s.arrays.getD r0 []).getD i 0)))
      (ext ++ e) hs1 (by omega)
    show ((s.arrays.getD r0 []).getD i 0 ::
      (loopAux beh r0 (i + 1) k (runActs s (beh ((s.arrays.getD r0 []).getD i 0)))).1) =
      snap.drop i
    rw [hrest, hcb, ← listDrop_getD snap 0 i hi]

/-- Claim C9: for every dispatch, the callbacks invoked are exactly the
array registered for the event type at the moment the dispatch loop
starts, in registration order; callbacks that add or remove listeners
of the same (or any) type during the pass change nothing about which
callbacks run or their order, because in-place pushes land beyond the
captured length and removals rebind the type to a fresh array. -/
theorem C9_theorem (beh : Nat → List Act) (s : LStore) (t : String) :
    dispatchInvoked beh s t = snapshotList s t := by
  cases hg : tblGet s.table t with
  | none => simp [dispatchInvoked, snapshotList, hg]
  | some r0 =>
    simp only [dispatchInvoked, snapshotList, hg]
    have hl := loopAux_snap beh r0 (s.arrays.getD r0 [])
      (s.arrays.getD r0 []).length 0 s []
      (by rw [List.append_nil]) (by omega)
    rw [hl, List.drop_zero]

/-- Helper: consing a character never empties a split result. -/
theorem consHead_ne_nil (c : Char) (L : List Str) : consHead c L ≠ [] := by
  cases L <;> simp [consHead]

/-- Helper: the LF-only splitter never returns an empty list. -/
theorem splitNN_ne_nil (s : Str) : splitNN s ≠ [] := by
  rw [splitNN.eq_def]
  split
  · simp
  · exact consHead_ne_nil _ _
  · simp

/-- Helper: the last piece of a cons with non-empty tail. -/
theorem lastD_cons (a : Str) (L : List Str) (h : L ≠ []) :
    lastD (a :: L) = lastD L := by
  cases L with
  | nil => exact absurd rfl h
  | cons b t => rfl

/-- Helper: dropping the last piece of a cons with non-empty tail. -/
theorem dropTail_cons (a : Str) (L : List Str) (h : L ≠ []) :
    dropTail (a :: L) = a :: dropTail L := by
  cases L with
  | nil => exact absurd rfl h
  | cons b t => rfl

/-- Helper: joinNN on a cons with non-empty tail. -/
theorem joinNN_cons (a : Str) (L : List Str) (h : L ≠ []) :
    joinNN (a :: L) = a ++ '\n' :: '\n' :: joinNN L := by
  cases L with
  | nil => exact absurd rfl h
  | cons b t => rfl

/-- Helper: joinNN after consHead prepends the character. -/
theorem joinNN_consHead (c : Char) (L : List Str) (h : L ≠ []) :
    joinNN (consHead c L) = c :: joinNN L := by
  cases L with
  | nil => exact absurd rfl h
  | cons b t =>
    cases t with
    | nil => rfl
    | cons b2 t2 => rfl

/-- Helper: rejoining the LF-only split reconstructs the string. -/
theorem joinNN_splitNN_aux : ∀ (n : Nat) (s : Str), s.length ≤ n →
    joinNN (splitNN s) = s := by
  intro n
  induction n with
  | zero =>
    intro s h
    cases s with
    | nil => rfl
    | cons a t => simp at h
  | succ n ih =>
    intro s hle
    rw [splitNN.eq_def]
    split
    · next u =>
      rw [joinNN_cons [] (splitNN u) (splitNN_ne_nil u),
        ih u (by simp only [List.length_cons] at hle; omega)]
      rfl
    · next c t hne =>
      rw [joinNN_consHead c (splitNN t) (splitNN_ne_nil t),
        ih t (by simp only [List.length_cons] at hle; omega)]
    · rfl

/-- Helper: rejoining the LF-only split reconstructs the string. -/
theorem joinNN_splitNN (s : Str) : joinNN (splitNN s) = s :=
  joinNN_splitNN_aux s.length s (Nat.le_refl _)

/-- Helper: a singleton LF-only split means the string had no cut. -/
theorem splitNN_singleton (s h : Str) (hs : splitNN s = [h]) : h = s := by
  have := joinNN_splitNN s
  rw [hs] at this
  exact this

/-- Helper: the LF-only splitter on a singleton string. -/
theorem splitNN_single (c : Char) : splitNN [c] = [[c]] := by
  rw [splitNN.eq_def]
  split
  · next u heq => simp at heq
  · next c2 t2 hno heq =>
    injection heq with h1 h2
    subst h1
    subst h2
    rfl
  · next heq => simp at heq

/-- Helper: the LF-only splitter on two leading characters that do not
form a boundary. -/
theorem splitNN_cons2 (c d : Char) (u : Str) (h : ¬(c = '\n' ∧ d = '\n')) :
    splitNN (c :: d :: u) = consHead c (splitNN (d :: u)) := by
  rw [splitNN.eq_def]
  split
  · next u2 heq =>
    injection heq with h1 h2
    injection h2 with h3 h4
    exact absurd ⟨h1, h3⟩ h
  · next c2 t2 hno heq =>
    injection heq with h1 h2
    subst h1
    subst h2
    rfl
  · next heq => simp at heq

/-- Helper: splitting an extended string continues from the previous
residual: the pieces before the last one are final, and the last piece
is re-split together with the new data. -/
theorem splitNN_append_aux : ∀ (n : Nat) (s b : Str), s.length ≤ n →
    splitNN (s ++ b) = dropTail (splitNN s) ++ splitNN (lastD (splitNN s) ++ b) := by
  intro n
  induction n with
  | zero =>
    intro s b h
    cases s with
    | nil => simp [splitNN, dropTail, lastD]
    | cons c t => simp at h
  | succ n ih =>
    intro s b hle
    cases s with
    | nil => simp [splitNN, dropTail, lastD]
    | cons c t =>
      cases t with
      | nil =>
        rw [splitNN_single c]
        simp [dropTail, lastD]
      | cons d u =>
        have hlen : (d :: u).length ≤ n := by
          simp only [List.length_cons] at hle ⊢
          omega
        by_cases hnn : c = '\n' ∧ d = '\n'
        · obtain ⟨hc, hd⟩ := hnn
          subst hc
          subst hd
          show [] :: splitNN (u ++ b) =
            dropTail ([] :: splitNN u) ++ splitNN (lastD ([] :: splitNN u) ++ b)
          rw [dropTail_cons [] (splitNN u) (splitNN_ne_nil u),
            lastD_cons [] (splitNN u) (splitNN_ne_nil u),
            ih u b (by simp only [List.length_cons] at hle; omega)]
          rfl
        · have hstep1 : splitNN ((c :: d :: u) ++ b) = consHead c (splitNN (d :: (u ++ b))) := by
            show splitNN (c :: d :: (u ++ b)) = _
            exact splitNN_cons2 c d (u ++ b) hnn
          have hstep2 : splitNN (c :: d :: u) = consHead c (splitNN (d :: u)) :=
            splitNN_cons2 c d u hnn
          obtain ⟨h1, L, hhl⟩ : ∃ h1 L, splitNN (d :: u) = h1 :: L := by
            cases hsp : splitNN (d :: u) with
            | nil => exact absurd hsp (splitNN_ne_nil _)
            | cons x xs => exact ⟨x, xs, rfl⟩
          cases L with
          | nil =>
            have hdu : h1 = d :: u := splitNN_singleton _ _ hhl
            subst hdu
            rw [hstep2, hhl]
            show splitNN ((c :: d :: u) ++ b) =
              dropTail [c :: d :: u] ++ splitNN (lastD [c :: d :: u] ++ b)
            simp [dropTail, lastD]
          | cons l2 L2 =>
            have hih := ih (d :: u) b hlen
            rw [List.cons_append] at hih
            rw [hhl] at hih
            rw [hstep1, hstep2, hhl, hih]
            rfl

/-- Helper: wrapper of the split composition lemma. -/
theorem splitNN_append (s b : Str) :
    splitNN (s ++ b) = dropTail (splitNN s) ++ splitNN (lastD (splitNN s) ++ b) :=
  splitNN_append_aux s.length s b (Nat.le_refl _)

/-- Helper: the residual piece of an LF-only split contains no further
boundary, so re-splitting it alone changes nothing. -/
theorem splitNN_lastD : ∀ (n : Nat) (s : Str), s.length ≤ n →
    splitNN (lastD (splitNN s)) = [lastD (splitNN s)] := by
  intro n
  induction n with
  | zero =>
    intro s h
    cases s with
    | nil => rfl
    | cons a t => simp at h
  | succ n ih =>
    intro s hle
    cases s with
    | nil => rfl
    | cons c t =>
      cases t with
      | nil =>
        rw [splitNN_single c]
        show splitNN [c] = [[c]]
        exact splitNN_single c
      | cons d u =>
        by_cases hnn : c = '\n' ∧ d = '\n'
        · obtain ⟨hc, hd⟩ := hnn
          subst hc
          subst hd
          show splitNN (lastD ([] :: splitNN u)) = [lastD ([] :: splitNN u)]
          rw [lastD_cons [] (splitNN u) (splitNN_ne_nil u)]
          exact ih u (by simp only [List.length_cons] at hle; omega)
        · have hstep2 : splitNN (c :: d :: u) = consHead c (splitNN (d :: u)) :=
            splitNN_cons2 c d u hnn
          have hlen : (d :: u).length ≤ n := by
            simp only [List.length_cons] at hle ⊢
            omega
          obtain ⟨h1, L, hhl⟩ : ∃ h1 L, splitNN (d :: u) = h1 :: L := by
            cases hsp : splitNN (d :: u) with
            | nil => exact absurd hsp (splitNN_ne_nil _)
            | cons x xs => exact ⟨x, xs, rfl⟩
          rw [hstep2, hhl]
          cases L with
          | nil =>
            have hdu : h1 = d :: u := splitNN_singleton _ _ hhl
            subst hdu
            show splitNN (c :: d :: u) = [c :: d :: u]
            rw [hstep2, hhl]
            rfl
          | cons l2 L2 =>
            show splitNN (lastD (l2 :: L2)) = [lastD (l2 :: L2)]
            have hihs := ih (d :: u) hlen
            rw [hhl, lastD_cons h1 (l2 :: L2) (by simp)] at hihs
            exact hihs

/-- Helper: every character of a piece of a join is in the join. -/
theorem mem_joinNN (L : List Str) : ∀ (p : Str), p ∈ L → ∀ (c : Char), c ∈ p →
    c ∈ joinNN L := by
  induction L with
  | nil => intro p hp; simp at hp
  | cons a L2 ih =>
    intro p hp c hc
    cases L2 with
    | nil =>
      have : p = a := by
        rcases List.mem_cons.mp hp with h | h
        · exact h
        · simp at h
      subst this
      exact hc
    | cons b2 L3 =>
      rw [joinNN_cons a (b2 :: L3) (by simp)]
      rcases List.mem_cons.mp hp with h | h
      · subst h
        exact List.mem_append_left _ hc
      · exact List.mem_append_right _
          (List.mem_cons_of_mem _ (List.mem_cons_of_mem _ (ih p h c hc)))

/-- Helper: pieces of an LF-only split of a CR-free string are
CR-free. -/
theorem noCR_of_mem_splitNN (s p : Str) (hs : noCR s = true) (hp : p ∈ splitNN s) :
    noCR p = true := by
  unfold noCR at hs ⊢
  rw [List.all_eq_true] at hs ⊢
  intro c hc
  have hcs : c ∈ s := by
    have := mem_joinNN (splitNN s) p hp c hc
    rw [joinNN_splitNN s] at this
    exact this
  exact hs c hcs

/-- Helper: the last piece belongs to the list. -/
theorem lastD_mem : ∀ (L : List Str), L ≠ [] → lastD L ∈ L := by
  intro L
  induction L with
  | nil => intro h; exact absurd rfl h
  | cons a t ih =>
    intro _
    cases t with
    | nil => simp [lastD]
    | cons b t2 =>
      rw [lastD_cons a (b :: t2) (by simp)]
      exact List.mem_cons_of_mem a (ih (by simp))

/-- Helper: CR-freeness distributes over append. -/
theorem noCR_append (a b : Str) : noCR (a ++ b) = (noCR a && noCR b) := by
  unfold noCR
  exact List.all_append

/-- Helper: interleaving a non-empty list is non-empty. -/
theorem interNL_ne_nil (L : List Str) (h : L ≠ []) : interNL L ≠ [] := by
  cases L with
  | nil => exact absurd rfl h
  | cons a t => cases t <;> simp [interNL]

/-- Helper: interleaving a cons with non-empty tail. -/
theorem interNL_cons (a : Str) (L : List Str) (h : L ≠ []) :
    interNL (a :: L) = a :: ['\n'] :: interNL L := by
  cases L with
  | nil => exact absurd rfl h
  | cons b t => rfl

/-- Helper: interleaving after consHead prepends the character to the
first piece. -/
theorem interNL_consHead (c : Char) (L : List Str) :
    interNL (consHead c L) = consHead c (interNL L) := by
  cases L with
  | nil => rfl
  | cons a t =>
    cases t with
    | nil => rfl
    | cons b r => rfl

/-- Helper: the record splitter on a singleton string. -/
theorem splitRecords_single (c : Char) : splitRecords [c] = [[c]] := by
  rw [splitRecords.eq_def]
  split
  · rename_i heq; simp at heq
  · rename_i heq; simp at heq
  · rename_i heq; simp at heq
  · rename_i heq; simp at heq
  · rename_i heq; simp at heq
  · rename_i heq; simp at heq
  · rename_i heq; simp at heq
  · rename_i heq; simp at heq
  · rename_i heq; simp at heq
  · rename_i heq
    injection heq with h1 h2
    subst h1
    subst h2
    rfl
  · rename_i heq; simp at heq

/-- Helper: the record splitter on two leading CR-free characters that
do not form an LF-LF boundary steps past the first character. -/
theorem splitRecords_cons2 (c d : Char) (u : Str) (hc : c ≠ '\r')
    (hd : d ≠ '\r') (h : ¬(c = '\n' ∧ d = '\n')) :
    splitRecords (c :: d :: u) = consHead c (splitRecords (d :: u)) := by
  rw [splitRecords.eq_def]
  split
  · rename_i heq
    injection heq with h1 h2
    exact absurd h1 hc
  · rename_i heq
    injection heq with h1 h2
    exact absurd h1 hc
  · rename_i heq
    injection heq with h1 h2
    exact absurd h1 hc
  · rename_i heq
    injection heq with h1 h2
    exact absurd h1 hc
  · rename_i heq
    injection heq with h1 h2
    exact absurd h1 hc
  · rename_i heq
    injection heq with h1 h2
    exact absurd h1 hc
  · rename_i heq
    injection heq with h1 h2
    injection h2 with h3 h4
    exact absurd h3 hd
  · rename_i heq
    injection heq with h1 h2
    injection h2 with h3 h4
    exact absurd h3 hd
  · rename_i heq
    injection heq with h1 h2
    injection h2 with h3 h4
    exact absurd ⟨h1, h3⟩ h
  · rename_i heq
    injection heq with h1 h2
    subst h1
    subst h2
    rfl
  · rename_i heq
    simp at heq

/-- Helper: CR-freeness of a cons. -/
theorem noCR_cons (c : Char) (t : Str) :
    noCR (c :: t) = true ↔ (c ≠ '\r' ∧ noCR t = true) := by
  simp [noCR]

/-- Helper, fuel form: on CR-free input the backtracking record
splitter coincides with the LF-only splitter interleaved with single
LF capture groups. -/
theorem splitRecords_noCR_aux : ∀ (n : Nat) (s : Str), s.length ≤ n →
    noCR s = true → splitRecords s = interNL (splitNN s) := by
  intro n
  induction n with
  | zero =>
    intro s h hcr
    cases s with
    | nil => rfl
    | cons a t => simp at h
  | succ n ih =>
    intro s hle hcr
    cases s with
    | nil => rfl
    | cons c t =>
      obtain ⟨hc, hct⟩ := (noCR_cons c t).mp hcr
      cases t with
      | nil =>
        rw [splitRecords_single, splitNN_single]
        rfl
      | cons d u =>
        obtain ⟨hd, hcu⟩ := (noCR_cons d u).mp hct
        by_cases hnn : c = '\n' ∧ d = '\n'
        · obtain ⟨h1, h2⟩ := hnn
          subst h1
          subst h2
          show [] :: ['\n'] :: splitRecords u = interNL ([] :: splitNN u)
          rw [interNL_cons [] (splitNN u) (splitNN_ne_nil u)]
          rw [ih u (by simp only [List.length_cons] at hle; omega) hcu]
        · rw [splitRecords_cons2 c d u hc hd hnn, splitNN_cons2 c d u hnn,
              interNL_consHead]
          rw [ih (d :: u) (by simp only [List.length_cons] at hle ⊢; omega) hct]

/-- Helper: bridging between the two splitters on CR-free input. -/
theorem splitRecords_noCR (s : Str) (h : noCR s = true) :
    splitRecords s = interNL (splitNN s) :=
  splitRecords_noCR_aux s.length s (Nat.le_refl _) h

/-- Helper: interleaving preserves the last piece. -/
theorem interNL_lastD : ∀ (L : List Str), lastD (interNL L) = lastD L := by
  intro L
  induction L with
  | nil => rfl
  | cons a t ih =>
    cases t with
    | nil => rfl
    | cons b r =>
      rw [interNL_cons a (b :: r) (by simp)]
      rw [lastD_cons a (['\n'] :: interNL (b :: r)) (by simp)]
      rw [lastD_cons ['\n'] (interNL (b :: r)) (interNL_ne_nil (b :: r) (by simp))]
      rw [ih, lastD_cons a (b :: r) (by simp)]

/-- Helper: a lone capture-group newline part dispatches nothing, its
trim being empty. -/
theorem dispatchOf_nl : SSE203.dispatchOf ['\n'] = [] := by
  decide

/-- Helper: the interleaved capture-group parts contribute no events,
so dispatching over the interleaved non-residual parts equals
dispatching over the plain non-residual pieces. -/
theorem dispatchAll_dropTail_interNL : ∀ (L : List Str),
    SSE203.dispatchAll (dropTail (interNL L)) = SSE203.dispatchAll (dropTail L) := by
  intro L
  induction L with
  | nil => rfl
  | cons a t ih =>
    cases t with
    | nil => rfl
    | cons b r =>
      rw [interNL_cons a (b :: r) (by simp)]
      rw [dropTail_cons a (['\n'] :: interNL (b :: r)) (by simp)]
      rw [dropTail_cons ['\n'] (interNL (b :: r)) (interNL_ne_nil (b :: r) (by simp))]
      rw [dropTail_cons a (b :: r) (by simp)]
      show SSE203.dispatchOf a ++ (SSE203.dispatchOf ['\n'] ++
          SSE203.dispatchAll (dropTail (interNL (b :: r)))) =
        SSE203.dispatchOf a ++ SSE203.dispatchAll (dropTail (b :: r))
      rw [dispatchOf_nl, ih]
      rfl

/-- Helper: the last piece of an append with non-empty right part. -/
theorem lastD_append : ∀ (A B : List Str), B ≠ [] → lastD (A ++ B) = lastD B := by
  intro A
  induction A with
  | nil => intro B h; rfl
  | cons a A2 ih =>
    intro B h
    rw [List.cons_append, lastD_cons a (A2 ++ B) (by simp [h]), ih B h]

/-- Helper: dropping the last piece of an append with non-empty right
part. -/
theorem dropTail_append : ∀ (A B : List Str), B ≠ [] →
    dropTail (A ++ B) = A ++ dropTail B := by
  intro A
  induction A with
  | nil => intro B h; rfl
  | cons a A2 ih =>
    intro B h
    rw [List.cons_append, dropTail_cons a (A2 ++ B) (by simp [h]), ih B h,
        List.cons_append]

/-- Helper: dispatching distributes over list append. -/
theorem dispatchAll_append (A B : List Str) :
    SSE203.dispatchAll (A ++ B) = SSE203.dispatchAll A ++ SSE203.dispatchAll B := by
  induction A with
  | nil => rfl
  | cons p ps ih =>
    show SSE203.dispatchOf p ++ SSE203.dispatchAll (ps ++ B) =
      (SSE203.dispatchOf p ++ SSE203.dispatchAll ps) ++ SSE203.dispatchAll B
    rw [ih, List.append_assoc]

/-- Helper: the progress handler on an already-open 200 stream: no open
event, the unread suffix of the response text is appended to the
residual buffer, the record split's popped last piece becomes the new
residual, and the other parts are dispatched. -/
theorem onStreamProgress_open (ofs : Nat) (ch rt : Str) :
    onStreamProgress { xhr := some { status := 200, responseText := rt },
                       readyState := OPEN, progressOfs := ofs, chunk := ch } =
      some ({ xhr := some { status := 200, responseText := rt },
              readyState := OPEN,
              progressOfs := ofs + (rt.drop ofs).length,
              chunk := lastD (splitRecords (ch ++ rt.drop ofs)) },
            dispatchAll (dropTail (splitRecords (ch ++ rt.drop ofs)))) := by
  rfl

/-- Helper: the events of the parts finalized before an extension plus
the events of the parts finalized by re-splitting the residual with the
extension equal the events of the parts finalized over the whole
extended text. -/
theorem evs_accum (s p : Str) :
    dispatchAll (dropTail (splitNN s)) ++
      dispatchAll (dropTail (splitNN (lastD (splitNN s) ++ p))) =
    dispatchAll (dropTail (splitNN (s ++ p))) := by
  rw [splitNN_append s p,
      dropTail_append _ _ (splitNN_ne_nil _),
      dispatchAll_append]

/-- Helper: delivering one CR-free piece to the open state that has
consumed s yields the open state that has consumed s plus the piece,
and dispatches the events of the parts finalized by re-splitting the
residual together with the piece. -/
theorem progress_open_step (s p : Str) (h : noCR (s ++ p) = true) :
    deliverPiece (stateOf s) p =
      some (stateOf (s ++ p),
        dispatchAll (dropTail (splitNN (lastD (splitNN s) ++ p)))) := by
  rw [noCR_append, Bool.and_eq_true] at h
  obtain ⟨hs, hp⟩ := h
  have hlast : noCR (lastD (splitNN s)) = true :=
    noCR_of_mem_splitNN s (lastD (splitNN s)) hs
      (lastD_mem (splitNN s) (splitNN_ne_nil s))
  have hres : noCR (lastD (splitNN s) ++ p) = true := by
    rw [noCR_append, hlast, hp]
    rfl
  have hstep : deliverPiece (stateOf s) p =
      some ({ xhr := some { status := 200, responseText := s ++ p },
              readyState := OPEN,
              progressOfs := s.length + ((s ++ p).drop s.length).length,
              chunk := lastD (splitRecords (lastD (splitNN s) ++ (s ++ p).drop s.length)) },
            dispatchAll (dropTail (splitRecords (lastD (splitNN s) ++ (s ++ p).drop s.length)))) :=
    onStreamProgress_open s.length (lastD (splitNN s)) (s ++ p)
  rw [List.drop_left] at hstep
  rw [splitRecords_noCR _ hres] at hstep
  rw [interNL_lastD] at hstep
  rw [dispatchAll_dropTail_interNL] at hstep
  rw [← List.length_append] at hstep
  have hchunk : lastD (splitNN (s ++ p)) = lastD (splitNN (lastD (splitNN s) ++ p)) := by
    rw [splitNN_append s p]
    exact lastD_append _ _ (splitNN_ne_nil _)
  rw [← hchunk] at hstep
  exact hstep

/-- Helper: delivering a list of CR-free pieces runs the open state
forward over their concatenation, and the accumulated events extend
the already-finalized events to exactly those of the whole consumed
text. -/
theorem deliverPieces_run : ∀ (ps : List Str) (s : Str),
    noCR (s ++ concatL ps) = true →
    ∃ evs, deliverPieces (stateOf s) ps = some (stateOf (s ++ concatL ps), evs) ∧
      dispatchAll (dropTail (splitNN s)) ++ evs =
        dispatchAll (dropTail (splitNN (s ++ concatL ps))) := by
  intro ps
  induction ps with
  | nil =>
    intro s h
    refine ⟨[], ?_, ?_⟩
    · show some (stateOf s, []) = some (stateOf (s ++ []), [])
      rw [List.append_nil]
    · show dispatchAll (dropTail (splitNN s)) ++ [] =
        dispatchAll (dropTail (splitNN (s ++ [])))
      rw [List.append_nil, List.append_nil]
  | cons p ps ih =>
    intro s h
    have he : s ++ concatL (p :: ps) = (s ++ p) ++ concatL ps := by
      show s ++ (p ++ concatL ps) = (s ++ p) ++ concatL ps
      rw [List.append_assoc]
    rw [he] at h
    have hsp : noCR (s ++ p) = true := by
      rw [noCR_append, Bool.and_eq_true] at h
      exact h.1
    obtain ⟨evs2, hrun, hacc⟩ := ih (s ++ p) h
    refine ⟨dispatchAll (dropTail (splitNN (lastD (splitNN s) ++ p))) ++ evs2, ?_, ?_⟩
    · simp only [deliverPieces, progress_open_step s p hsp, hrun, he]
    · rw [he, ← List.append_assoc, evs_accum s p, hacc]

/-- Helper: the end-of-stream load notification on the open state that
has consumed the whole CR-free text dispatches nothing from the final
empty progress pass, then parses and dispatches the residual piece,
which is the popped last piece of the record split of the text. -/
theorem loaded_run (T : Str) (h : noCR T = true) :
    onStreamLoaded (stateOf T) =
      some ({ xhr := some { status := 200, responseText := T },
              readyState := OPEN, progressOfs := T.length, chunk := [] },
            (parseEventChunk (lastD (splitNN T))).toList.map Ev.parsed) := by
  have hlcr : noCR (lastD (splitNN T)) = true :=
    noCR_of_mem_splitNN T (lastD (splitNN T)) h
      (lastD_mem (splitNN T) (splitNN_ne_nil T))
  have hprog : onStreamProgress (stateOf T) =
      some ({ xhr := some { status := 200, responseText := T },
              readyState := OPEN, progressOfs := T.length,
              chunk := lastD (splitNN T) }, []) := by
    have h0 := onStreamProgress_open T.length (lastD (splitNN T)) T
    rw [List.drop_length, List.append_nil] at h0
    rw [splitRecords_noCR _ hlcr, splitNN_lastD T.length T (Nat.le_refl _)] at h0
    exact h0
  simp only [onStreamLoaded, hprog]
  rfl

/-- Helper: the full observable run on CR-free pieces depends only on
their concatenation: the events of the finalized parts of the whole
text, then the parse of its residual last piece. -/
theorem runStream_noCR (pieces : List Str) (h : noCR (concatL pieces) = true) :
    runStream pieces =
      some (dispatchAll (dropTail (splitNN (concatL pieces))) ++
        (parseEventChunk (lastD (splitNN (concatL pieces)))).toList.map Ev.parsed) := by
  have h0 : noCR (([] : Str) ++ concatL pieces) = true := h
  obtain ⟨evs, hrun, hacc⟩ := deliverPieces_run pieces [] h0
  have hrun2 : deliverPieces openState pieces =
      some (stateOf (concatL pieces), evs) := hrun
  have hevs : evs = dispatchAll (dropTail (splitNN (concatL pieces))) := hacc
  simp only [runStream, hrun2, loaded_run (concatL pieces) h, hevs]

/-- Claim C1 counterexample: delivering the text data: x CR CR LF split
after the second CR is NOT equivalent to delivering it whole. Split
delivery lets the backtracking boundary regex match the CR CR pair
first and finalize the record early, then the later LF forms a second
spurious boundary with nothing before it; whole delivery matches CR
followed by CR LF as the boundary. The split run dispatches an extra
empty message event, so chunk-boundary invariance fails on texts with
carriage returns. -/
theorem C1_counterexample :
    runStream [("data: x\r\r").toList, ("\n").toList] ≠
      runStream [("data: x\r\r").toList ++ ("\n").toList] := by
  decide

/-- Claim C1: chunk-boundary invariance of the progress pipeline
(_onStreamProgress with the residual buffer, then _onStreamLoaded), as
amended: it holds for every total text free of carriage returns,
however that text is split into successive cumulative progress
notifications. The unrestricted claim is refuted by C1_counterexample:
a carriage-return pair split between notifications changes the
dispatched sequence, because the boundary regex backtracks differently
on the re-split residual. -/
theorem C1_theorem (pieces : List Str) (h : noCR (concatL pieces) = true) :
    runStream pieces = runStream [concatL pieces] := by
  rw [runStream_noCR pieces h]
  have h1 : noCR (concatL [concatL pieces]) = true := by
    show noCR (concatL pieces ++ []) = true
    rw [List.append_nil]
    exact h
  rw [runStream_noCR [concatL pieces] h1]
  have he : concatL [concatL pieces] = concatL pieces := by
    show concatL pieces ++ [] = concatL pieces
    rw [List.append_nil]
  rw [he]

/-- Claim C1 witness: a concrete CR-free two-piece delivery, split in
the middle of a record, runs identically to the whole-text delivery. -/
theorem C1_witness :
    noCR (concatL [("data: a\n").toList, ("\ndata: b\n\n").toList]) = true ∧
      runStream [("data: a\n").toList, ("\ndata: b\n\n").toList] =
        runStream [concatL [("data: a\n").toList, ("\ndata: b\n\n").toList]] :=
  ⟨by decide, C1_theorem [("data: a\n").toList, ("\ndata: b\n\n").toList] (by decide)⟩
